import Mathlib

/-!
Verification of the resumable columnar transform engine behind `Dataset.map`
(the Durable Cache Log, Row Transform Runner, Task Ledger and Materializer),
together with the `hoistElement` DOM utility from `Hoist.ts`.

The engine itself is not present in the sources (only the `DatasetMap.ipynb`
notebook that drives it is), so the engine components are modelled from the
specification; `hoistElement` is embedded directly from `Hoist.ts`.
-/

set_option autoImplicit false
set_option maxRecDepth 8000

namespace Lilac

/-- Modelled from the spec: an Item is a nested value (scalar, mapping, sequence,
or Span); the claims here only exercise scalar and span shapes, so the variant is
restricted to those constructors. -/
inductive Item where
  | null : Item
  | str : String → Item
  | num : Int → Item
  | span : Nat → Nat → Item
deriving DecidableEq

/-- Modelled from the spec: a source row, a stable RowId paired with its value. -/
structure Row where
  rowid : Nat
  value : Item
deriving DecidableEq

/-- Modelled from the spec: a Cache Record pairs a RowId with an optional output
Item; a `none` output marks processed-but-produced-nothing. -/
structure CacheRecord where
  rowid : Nat
  output : Option Item
deriving DecidableEq

/-- Modelled from the spec: whether the cache log already holds a record for a
given RowId (the log itself is the checkpoint). -/
def cacheHas (log : List CacheRecord) (rid : Nat) : Bool :=
  log.any (fun c => c.rowid == rid)

/-- Modelled from the spec: the Row Transform Runner for a non-failing user
function. Rows already present in the log are skipped without re-invoking the
function; fresh rows are computed and their record appended, in row order. -/
def seqRun (fn : Row → Option Item) : List Row → List CacheRecord → List CacheRecord
  | [], log => log
  | r :: rs, log =>
    if cacheHas log r.rowid then seqRun fn rs log
    else seqRun fn rs (log ++ [⟨r.rowid, fn r⟩])

/-- Modelled from the spec: the materialized output column aligns cache records
to the source rows by RowId. -/
def materializeColumn (log : List CacheRecord) (rows : List Row) : List (Option Item) :=
  rows.map (fun r => (log.find? (fun c => c.rowid == r.rowid)).bind (fun c => c.output))

/-- Serialization of one Item, standing in for its on-disk bytes. -/
def serializeItem : Item → String
  | Item.null => "null"
  | Item.str s => "str(" ++ s ++ ")"
  | Item.num n => "num(" ++ toString n ++ ")"
  | Item.span a b => "span(" ++ toString a ++ "," ++ toString b ++ ")"

/-- Serialization of one output cell. -/
def serializeCell : Option Item → String
  | none => "none"
  | some it => serializeItem it

/-- Byte-level view of a materialized output column. -/
def serializeColumn (col : List (Option Item)) : String :=
  String.intercalate "\n" (col.map serializeCell)

theorem cacheHas_append (l₁ l₂ : List CacheRecord) (rid : Nat) :
    cacheHas (l₁ ++ l₂) rid = (cacheHas l₁ rid || cacheHas l₂ rid) := by
  simp [cacheHas, List.any_append]

theorem cacheHas_mono_append {l : List CacheRecord} {rid : Nat}
    (h : cacheHas l rid = true) (l₂ : List CacheRecord) :
    cacheHas (l ++ l₂) rid = true := by
  simp [cacheHas_append, h]

theorem cacheHas_of_append_false {l l₂ : List CacheRecord} {rid : Nat}
    (h : cacheHas (l ++ l₂) rid = false) : cacheHas l rid = false := by
  rw [cacheHas_append] at h
  exact (Bool.or_eq_false_iff.mp h).1

theorem seqRun_append (fn : Row → Option Item) (l₁ l₂ : List Row)
    (log : List CacheRecord) :
    seqRun fn (l₁ ++ l₂) log = seqRun fn l₂ (seqRun fn l₁ log) := by
  induction l₁ generalizing log with
  | nil => rfl
  | cons r rs ih =>
    simp only [List.cons_append, seqRun]
    by_cases h : cacheHas log r.rowid = true
    · simp only [h, if_true]
      exact ih _
    · simp only [h, if_false, Bool.false_eq_true]
      exact ih _

theorem cacheHas_seqRun_mono (fn : Row → Option Item) (l : List Row)
    {log : List CacheRecord} {rid : Nat} (h : cacheHas log rid = true) :
    cacheHas (seqRun fn l log) rid = true := by
  induction l generalizing log with
  | nil => exact h
  | cons r rs ih =>
    simp only [seqRun]
    by_cases hc : cacheHas log r.rowid = true
    · simp only [hc, if_true]
      exact ih h
    · simp only [hc, if_false, Bool.false_eq_true]
      exact ih (cacheHas_mono_append h _)

theorem cacheHas_seqRun_of_mem (fn : Row → Option Item) {l : List Row}
    {r : Row} (hr : r ∈ l) (log : List CacheRecord) :
    cacheHas (seqRun fn l log) r.rowid = true := by
  induction l generalizing log with
  | nil => cases hr
  | cons x xs ih =>
    simp only [seqRun]
    rcases List.mem_cons.mp hr with h | h
    · subst h
      by_cases hc : cacheHas log r.rowid = true
      · simp only [hc, if_true]
        exact cacheHas_seqRun_mono fn xs hc
      · simp only [hc, if_false, Bool.false_eq_true]
        refine cacheHas_seqRun_mono fn xs ?_
        simp [cacheHas_append, cacheHas]
    · by_cases hc : cacheHas log x.rowid = true
      · simp only [hc, if_true]
        exact ih h _
      · simp only [hc, if_false, Bool.false_eq_true]
        exact ih h _

theorem seqRun_all_cached (fn : Row → Option Item) {l : List Row}
    {log : List CacheRecord} (h : ∀ r ∈ l, cacheHas log r.rowid = true) :
    seqRun fn l log = log := by
  induction l with
  | nil => rfl
  | cons r rs ih =>
    simp only [seqRun, h r (List.mem_cons_self r rs), if_true]
    exact ih (fun x hx => h x (List.mem_cons_of_mem r hx))

/-- C1: for any deterministic user function and row set, running the transform to
completion in one uninterrupted pass produces the same final cache log — and hence
a byte-identical materialized output column — as running it, interrupting it after
any N rows, and re-invoking it with the same parameters until completion. -/
theorem map_idempotent_resume (fn : Row → Option Item) (rows : List Row) (n : Nat) :
    seqRun fn rows (seqRun fn (rows.take n) []) = seqRun fn rows [] ∧
    serializeColumn (materializeColumn
        (seqRun fn rows (seqRun fn (rows.take n) [])) rows)
      = serializeColumn (materializeColumn (seqRun fn rows []) rows) := by
  have hsplit : rows.take n ++ rows.drop n = rows := List.take_append_drop n rows
  have key : seqRun fn rows (seqRun fn (rows.take n) []) = seqRun fn rows [] := by
    calc
      seqRun fn rows (seqRun fn (rows.take n) [])
          = seqRun fn (rows.take n ++ rows.drop n) (seqRun fn (rows.take n) []) := by
            rw [hsplit]
      _ = seqRun fn (rows.drop n)
            (seqRun fn (rows.take n) (seqRun fn (rows.take n) [])) :=
            seqRun_append fn _ _ _
      _ = seqRun fn (rows.drop n) (seqRun fn (rows.take n) []) := by
            rw [seqRun_all_cached fn
              (fun r hr => cacheHas_seqRun_of_mem fn hr [])]
      _ = seqRun fn (rows.take n ++ rows.drop n) [] := (seqRun_append fn _ _ _).symm
      _ = seqRun fn rows [] := by rw [hsplit]
  exact ⟨key, by rw [key]⟩

/-- Witness for C1: a concrete three-row run interrupted after one row resumes to
the same final log as the uninterrupted run. -/
theorem map_idempotent_resume_witness :
    seqRun (fun r => some r.value)
        [⟨0, Item.str "a"⟩, ⟨1, Item.str "b"⟩, ⟨2, Item.str "c"⟩]
        (seqRun (fun r => some r.value)
          ([⟨0, Item.str "a"⟩, ⟨1, Item.str "b"⟩, ⟨2, Item.str "c"⟩].take 1) [])
      = seqRun (fun r => some r.value)
          [⟨0, Item.str "a"⟩, ⟨1, Item.str "b"⟩, ⟨2, Item.str "c"⟩] [] :=
  (map_idempotent_resume (fun r => some r.value)
    [⟨0, Item.str "a"⟩, ⟨1, Item.str "b"⟩, ⟨2, Item.str "c"⟩] 1).1

/-- Modelled from the spec: the Row Transform Runner instrumented with the list of
RowIds on which the user function is actually invoked (the call counter of the
skip-on-cache-hit property), in invocation order. -/
def seqRunTr (fn : Row → Option Item) :
    List Row → List CacheRecord → List CacheRecord × List Nat
  | [], log => (log, [])
  | r :: rs, log =>
    if cacheHas log r.rowid then seqRunTr fn rs log
    else
      let p := seqRunTr fn rs (log ++ [⟨r.rowid, fn r⟩])
      (p.1, r.rowid :: p.2)

/-- Number of cache records carrying a given RowId. -/
def countRec (log : List CacheRecord) (rid : Nat) : Nat :=
  (log.filter (fun c => c.rowid == rid)).length

theorem seqRunTr_fst (fn : Row → Option Item) (l : List Row)
    (log : List CacheRecord) : (seqRunTr fn l log).1 = seqRun fn l log := by
  induction l generalizing log with
  | nil => rfl
  | cons r rs ih =>
    simp only [seqRunTr, seqRun]
    by_cases h : cacheHas log r.rowid = true
    · simp only [h, if_true]
      exact ih _
    · simp only [h, if_false, Bool.false_eq_true]
      exact ih _

theorem seqRunTr_invoked_fresh (fn : Row → Option Item) (l : List Row)
    {log : List CacheRecord} :
    ∀ x ∈ (seqRunTr fn l log).2, cacheHas log x = false := by
  induction l generalizing log with
  | nil => intro x hx; cases hx
  | cons r rs ih =>
    intro x hx
    simp only [seqRunTr] at hx
    by_cases h : cacheHas log r.rowid = true
    · simp only [h, if_true] at hx
      exact ih x hx
    · simp only [h, if_false, Bool.false_eq_true] at hx
      rcases List.mem_cons.mp hx with hd | ht
      · subst hd
        exact Bool.eq_false_iff.mpr h
      · exact cacheHas_of_append_false (ih x ht)

theorem countRec_seqRun_of_cached (fn : Row → Option Item) (l : List Row)
    {log : List CacheRecord} {rid : Nat} (h : cacheHas log rid = true) :
    countRec (seqRun fn l log) rid = countRec log rid := by
  induction l generalizing log with
  | nil => rfl
  | cons r rs ih =>
    simp only [seqRun]
    by_cases hc : cacheHas log r.rowid = true
    · simp only [hc, if_true]
      exact ih h
    · simp only [hc, if_false, Bool.false_eq_true]
      have hne : r.rowid ≠ rid := by
        intro he
        rw [he] at hc
        exact hc h
      have hext : countRec (log ++ [⟨r.rowid, fn r⟩]) rid = countRec log rid := by
        simp [countRec, List.filter_append, hne]
      rw [ih (cacheHas_mono_append h _), hext]

theorem seqRun_record_mem (fn : Row → Option Item) (l : List Row)
    {log : List CacheRecord} :
    ∀ c ∈ seqRun fn l log, c ∈ log ∨ cacheHas log c.rowid = false := by
  induction l generalizing log with
  | nil => intro c hc; exact Or.inl hc
  | cons r rs ih =>
    intro c hc
    simp only [seqRun] at hc
    by_cases h : cacheHas log r.rowid = true
    · simp only [h, if_true] at hc
      exact ih c hc
    · simp only [h, if_false, Bool.false_eq_true] at hc
      rcases ih c hc with hmem | hfresh
      · rcases List.mem_append.mp hmem with hl | hr
        · exact Or.inl hl
        · refine Or.inr ?_
          have : c = (⟨r.rowid, fn r⟩ : CacheRecord) := by simpa using hr
          rw [this]
          exact Bool.eq_false_iff.mpr h
      · exact Or.inr (cacheHas_of_append_false hfresh)

/-- C2: on a resumed invocation, a row whose RowId already has a Cache Record is
never passed to the user function again and no second record is appended for it;
conversely every invoked RowId and every newly appended record belongs to a row
that was absent from the log. -/
theorem map_skip_on_cache_hit (fn : Row → Option Item) (rows : List Row)
    (log : List CacheRecord) (rid : Nat) (h : cacheHas log rid = true) :
    rid ∉ (seqRunTr fn rows log).2 ∧
    countRec ((seqRunTr fn rows log).1) rid = countRec log rid ∧
    (∀ x ∈ (seqRunTr fn rows log).2, cacheHas log x = false) ∧
    (∀ c ∈ (seqRunTr fn rows log).1, c ∈ log ∨ cacheHas log c.rowid = false) := by
  refine ⟨?_, ?_, seqRunTr_invoked_fresh fn rows, ?_⟩
  · intro hmem
    have := seqRunTr_invoked_fresh fn rows rid hmem
    rw [h] at this
    cases this
  · rw [seqRunTr_fst]
    exact countRec_seqRun_of_cached fn rows h
  · rw [seqRunTr_fst]
    exact seqRun_record_mem fn rows

/-- Witness for C2 at a concrete log and row list. -/
theorem map_skip_on_cache_hit_witness :
    cacheHas [(⟨7, some (Item.str "a")⟩ : CacheRecord)] 7 = true ∧
    7 ∉ (seqRunTr (fun r => some r.value)
        [⟨7, Item.str "x"⟩, ⟨8, Item.str "y"⟩]
        [(⟨7, some (Item.str "a")⟩ : CacheRecord)]).2 ∧
    countRec ((seqRunTr (fun r => some r.value)
        [⟨7, Item.str "x"⟩, ⟨8, Item.str "y"⟩]
        [(⟨7, some (Item.str "a")⟩ : CacheRecord)]).1) 7
      = countRec [(⟨7, some (Item.str "a")⟩ : CacheRecord)] 7 := by
  have h := map_skip_on_cache_hit (fun r => some r.value)
    [⟨7, Item.str "x"⟩, ⟨8, Item.str "y"⟩]
    [(⟨7, some (Item.str "a")⟩ : CacheRecord)] 7 (by decide)
  exact ⟨by decide, h.1, h.2.1⟩

/-- Modelled from the spec: lifecycle states of a Task, with the error details
kept in the terminal error state. -/
inductive TaskStatus where
  | pending : TaskStatus
  | running : TaskStatus
  | completed : TaskStatus
  | cancelled : TaskStatus
  | errored : String → TaskStatus
deriving DecidableEq

/-- Whether a task status is terminal (completed, error or cancelled). -/
def TaskStatus.isTerminal : TaskStatus → Bool
  | TaskStatus.pending => false
  | TaskStatus.running => false
  | _ => true

/-- Modelled from the spec: a scheduled Task, identity plus lifecycle status. -/
structure Task where
  id : Nat
  status : TaskStatus
deriving DecidableEq

/-- Modelled from the spec: the first error encountered among the awaited tasks,
in order. -/
def firstError (tasks : List Task) : Option String :=
  tasks.findSome? (fun t =>
    match t.status with
    | TaskStatus.errored e => some e
    | _ => none)

/-- Modelled from the spec: `TaskManager.wait` returns only once every awaited
task is terminal (`none` while still blocked), and re-raises the first error
encountered verbatim rather than swallowing it. -/
def waitTasks (tasks : List Task) : Option (Except String Unit) :=
  if tasks.all (fun t => t.status.isTerminal) then
    some (match firstError tasks with
      | some e => Except.error e
      | none => Except.ok ())
  else none

/-- C3: `wait` blocks (returns nothing) until every referenced Task is terminal;
once all are terminal it re-raises the first encountered error verbatim — the
very error value the user function raised — and only succeeds when no awaited
task errored. -/
theorem wait_blocks_and_reraises (tasks : List Task) :
    ((waitTasks tasks).isSome = true ↔ ∀ t ∈ tasks, t.status.isTerminal = true) ∧
    (∀ e, (∀ t ∈ tasks, t.status.isTerminal = true) → firstError tasks = some e →
      waitTasks tasks = some (Except.error e)) ∧
    ((∀ t ∈ tasks, t.status.isTerminal = true) → firstError tasks = none →
      waitTasks tasks = some (Except.ok ())) := by
  refine ⟨?_, ?_, ?_⟩
  · unfold waitTasks
    by_cases h : tasks.all (fun t => t.status.isTerminal) = true
    · simp only [h, if_true, Option.isSome_some]
      simp only [List.all_eq_true] at h
      exact ⟨fun _ => h, fun _ => trivial⟩
    · simp only [h, if_false, Bool.false_eq_true, Option.isSome_none]
      simp only [List.all_eq_true] at h
      constructor
      · intro hfalse; cases hfalse
      · intro hall; exact absurd hall h
  · intro e hterm herr
    have hall : tasks.all (fun t => t.status.isTerminal) = true :=
      List.all_eq_true.mpr hterm
    simp [waitTasks, hall, herr]
  · intro hterm herr
    have hall : tasks.all (fun t => t.status.isTerminal) = true :=
      List.all_eq_true.mpr hterm
    simp [waitTasks, hall, herr]

/-- Witness for C3: a two-task snapshot where the second task errored. -/
theorem wait_blocks_and_reraises_witness :
    waitTasks [⟨0, TaskStatus.completed⟩, ⟨1, TaskStatus.errored "boom"⟩]
      = some (Except.error "boom") := by
  exact (wait_blocks_and_reraises
    [⟨0, TaskStatus.completed⟩, ⟨1, TaskStatus.errored "boom"⟩]).2.1
    "boom" (by decide) (by decide)

/-- Modelled from the spec: a dataset as the transform sees it — its schema field
paths, the manifest mapping field paths to columnar shard files, and its rows. -/
structure Dataset where
  schema : List String
  manifest : List (String × List String)
  rows : List Row
deriving DecidableEq

/-- The observable outcome of one `Dataset.map` invocation: the resulting dataset
state, how many source rows were read, and the returned outputs or error. -/
structure MapOutcome where
  dataset : Dataset
  rowsRead : Nat
  result : Except String (List (Option Item))

/-- Whether a map outcome is an error. -/
def MapOutcome.isError (o : MapOutcome) : Bool :=
  match o.result with
  | Except.error _ => true
  | Except.ok _ => false

/-- Modelled from the spec and the notebook narrative: `Dataset.map`. With no
output column the user function is run and its outputs are returned with the
dataset untouched; with an output column, an already-existing field path without
`overwrite` fails fast before any row is read; otherwise all rows are processed
and the schema and manifest are extended with the new field. -/
def datasetMap (ds : Dataset) (fn : Row → Option Item) (outputColumn : Option String)
    (overwrite : Bool) : MapOutcome :=
  match outputColumn with
  | none => ⟨ds, ds.rows.length, Except.ok (ds.rows.map fn)⟩
  | some col =>
    if ds.schema.contains col && !overwrite then
      ⟨ds, 0, Except.error "Output column already exists"⟩
    else
      ⟨⟨ds.schema ++ [col], ds.manifest ++ [(col, [col ++ ".parquet"])], ds.rows⟩,
        ds.rows.length, Except.ok (ds.rows.map fn)⟩

/-- C5: invoking the transform against a field path that already exists in the
schema, without requesting overwrite, fails before any row is read from the
source and leaves the dataset state unchanged. -/
theorem map_fail_fast_on_conflict (ds : Dataset) (fn : Row → Option Item)
    (col : String) (hcol : col ∈ ds.schema) :
    (datasetMap ds fn (some col) false).dataset = ds ∧
    (datasetMap ds fn (some col) false).rowsRead = 0 ∧
    (datasetMap ds fn (some col) false).isError = true := by
  simp [datasetMap, hcol, MapOutcome.isError]

/-- Witness for C5 on a concrete dataset whose schema already has the column. -/
theorem map_fail_fast_on_conflict_witness :
    (datasetMap ⟨["premise"], [], [⟨0, Item.str "t"⟩]⟩ (fun r => some r.value)
        (some "premise") false).dataset = ⟨["premise"], [], [⟨0, Item.str "t"⟩]⟩ ∧
    (datasetMap ⟨["premise"], [], [⟨0, Item.str "t"⟩]⟩ (fun r => some r.value)
        (some "premise") false).rowsRead = 0 := by
  have h := map_fail_fast_on_conflict ⟨["premise"], [], [⟨0, Item.str "t"⟩]⟩
    (fun r => some r.value) "premise" (by decide)
  exact ⟨h.1, h.2.1⟩

/-- C9: calling the transform with a user function but no output column runs the
function and returns its outputs, while the dataset — schema, manifest and rows —
is left exactly unchanged. -/
theorem map_no_output_column_pure (ds : Dataset) (fn : Row → Option Item)
    (overwrite : Bool) :
    (datasetMap ds fn none overwrite).dataset = ds ∧
    (datasetMap ds fn none overwrite).dataset.schema = ds.schema ∧
    (datasetMap ds fn none overwrite).dataset.manifest = ds.manifest ∧
    (datasetMap ds fn none overwrite).result = Except.ok (ds.rows.map fn) := by
  exact ⟨rfl, rfl, rfl, rfl⟩

/-- Witness for C9 on a concrete one-row dataset. -/
theorem map_no_output_column_pure_witness :
    (datasetMap ⟨["premise"], [], [⟨0, Item.str "t"⟩]⟩ (fun r => some r.value)
        none false).dataset = ⟨["premise"], [], [⟨0, Item.str "t"⟩]⟩ ∧
    (datasetMap ⟨["premise"], [], [⟨0, Item.str "t"⟩]⟩ (fun r => some r.value)
        none false).result
      = Except.ok ([(⟨0, Item.str "t"⟩ : Row)].map (fun r => some r.value)) := by
  have h := map_no_output_column_pure ⟨["premise"], [], [⟨0, Item.str "t"⟩]⟩
    (fun r => some r.value) false
  exact ⟨h.1, h.2.2.2⟩

/-- Zero-pads a number to five digits, as in the shard file name pattern
00000-of-00001 observed in the source. -/
def pad5 (n : Nat) : String :=
  let s := toString n
  String.mk (List.replicate (5 - s.length) '0' ++ s.data)

/-- Modelled from the spec and the cache path printed in the source notebook:
the cache-log file path is derived from the project directory, the dataset
namespace and name, the target field path, and the shard index and count. -/
def jsonlCachePath (projectDir namespace_ name fieldPath : String)
    (shardIndex shardCount : Nat) : String :=
  projectDir ++ "/.cache/lilac/" ++ namespace_ ++ "/" ++ name ++ "/" ++ fieldPath
    ++ "." ++ pad5 shardIndex ++ "-of-" ++ pad5 shardCount ++ ".jsonl"

/-- Modelled from the spec: opening a cache log reuses the file already present at
the path when there is one, and starts from an empty log otherwise. -/
def openCacheLog (fs : List (String × List CacheRecord)) (path : String) :
    List CacheRecord :=
  match fs.find? (fun e => e.1 == path) with
  | some e => e.2
  | none => []

/-- C6: the cache-log file path is a deterministic function of the dataset
namespace and name, the target field path, and the shard index and count: two
invocations with identical values of these parameters resolve to the identical
path, so the later invocation reopens the very log the earlier one wrote instead
of creating a new one. -/
theorem cache_path_deterministic (pd ns₁ ns₂ nm₁ nm₂ fp₁ fp₂ : String)
    (i₁ i₂ k₁ k₂ : Nat) (log : List CacheRecord)
    (fs : List (String × List CacheRecord))
    (hns : ns₁ = ns₂) (hnm : nm₁ = nm₂) (hfp : fp₁ = fp₂) (hi : i₁ = i₂)
    (hk : k₁ = k₂) :
    jsonlCachePath pd ns₁ nm₁ fp₁ i₁ k₁ = jsonlCachePath pd ns₂ nm₂ fp₂ i₂ k₂ ∧
    openCacheLog ((jsonlCachePath pd ns₁ nm₁ fp₁ i₁ k₁, log) :: fs)
        (jsonlCachePath pd ns₂ nm₂ fp₂ i₂ k₂) = log := by
  subst hns hnm hfp hi hk
  refine ⟨rfl, ?_⟩
  simp [openCacheLog]

/-- Witness for C6 at the concrete parameters seen in the source notebook. -/
theorem cache_path_deterministic_witness :
    jsonlCachePath "./data" "local" "glue_ax_map" "premise_upper2" 0 1
      = jsonlCachePath "./data" "local" "glue_ax_map" "premise_upper2" 0 1 ∧
    openCacheLog
        [(jsonlCachePath "./data" "local" "glue_ax_map" "premise_upper2" 0 1,
          [(⟨3, some Item.null⟩ : CacheRecord)])]
        (jsonlCachePath "./data" "local" "glue_ax_map" "premise_upper2" 0 1)
      = [(⟨3, some Item.null⟩ : CacheRecord)] :=
  cache_path_deterministic "./data" "local" "local" "glue_ax_map" "glue_ax_map"
    "premise_upper2" "premise_upper2" 0 0 1 1 [(⟨3, some Item.null⟩ : CacheRecord)]
    [] rfl rfl rfl rfl rfl

/-- Modelled from the spec: the on-disk state the Materializer touches — the
manifest, the cache-log files still present, and the columnar data files. -/
structure StoreState where
  manifest : List (String × List String)
  cacheLogFiles : List String
  dataFiles : List String
deriving DecidableEq

/-- Modelled from the spec: the points at which materialization can fail. -/
inductive MatFail where
  | readLogFail : MatFail
  | writeShardsFail : MatFail
  | manifestFail : MatFail
deriving DecidableEq

/-- Modelled from the spec: materialization folds the cache logs into new columnar
shard files and atomically updates the manifest; the cache-log files are deleted
only in the branch where the whole update succeeded, and a failure at any point
leaves the state untouched. -/
def materialize (st : StoreState) (fieldPath : String) (newFiles : List String)
    (logPaths : List String) (failure : Option MatFail) :
    StoreState × Option MatFail :=
  match failure with
  | some f => (st, some f)
  | none =>
    (⟨st.manifest ++ [(fieldPath, newFiles)],
      st.cacheLogFiles.filter (fun p => !(logPaths.contains p)),
      st.dataFiles ++ newFiles⟩, none)

/-- C7: materialization is atomic with respect to the manifest and never discards
computed work — if it fails at any point the manifest and every cache-log file are
exactly as before, and the cache logs are removed only in the branch where the
manifest update succeeded (in which the manifest references the new shard files). -/
theorem materialize_atomic (st : StoreState) (fieldPath : String)
    (newFiles logPaths : List String) (failure : Option MatFail) :
    (failure.isSome = true →
      (materialize st fieldPath newFiles logPaths failure).1 = st) ∧
    ((materialize st fieldPath newFiles logPaths failure).1.cacheLogFiles
        ≠ st.cacheLogFiles →
      failure = none ∧
      (materialize st fieldPath newFiles logPaths failure).1.manifest
        = st.manifest ++ [(fieldPath, newFiles)]) ∧
    (failure = none →
      (materialize st fieldPath newFiles logPaths failure).1.manifest
          = st.manifest ++ [(fieldPath, newFiles)] ∧
      (materialize st fieldPath newFiles logPaths failure).1.cacheLogFiles
          = st.cacheLogFiles.filter (fun p => !(logPaths.contains p))) := by
  cases failure with
  | some f =>
    refine ⟨fun _ => rfl, ?_, ?_⟩
    · intro hne
      exact absurd rfl hne
    · intro h; cases h
  | none =>
    refine ⟨?_, ?_, ?_⟩
    · intro h; cases h
    · intro _
      exact ⟨rfl, rfl⟩
    · intro _
      exact ⟨rfl, rfl⟩

/-- Witness for C7: a failed materialization leaves a concrete store untouched,
and a successful one updates the manifest and deletes the folded cache log. -/
theorem materialize_atomic_witness :
    (materialize ⟨[("premise", ["p.parquet"])], ["c.jsonl"], ["p.parquet"]⟩
        "premise_upper" ["u.parquet"] ["c.jsonl"] (some MatFail.manifestFail)).1
      = ⟨[("premise", ["p.parquet"])], ["c.jsonl"], ["p.parquet"]⟩ ∧
    (materialize ⟨[("premise", ["p.parquet"])], ["c.jsonl"], ["p.parquet"]⟩
        "premise_upper" ["u.parquet"] ["c.jsonl"] none).1.manifest
      = [("premise", ["p.parquet"])] ++ [("premise_upper", ["u.parquet"])] := by
  refine ⟨(materialize_atomic ⟨[("premise", ["p.parquet"])], ["c.jsonl"],
    ["p.parquet"]⟩ "premise_upper" ["u.parquet"] ["c.jsonl"]
    (some MatFail.manifestFail)).1 (by decide), ?_⟩
  exact ((materialize_atomic ⟨[("premise", ["p.parquet"])], ["c.jsonl"],
    ["p.parquet"]⟩ "premise_upper" ["u.parquet"] ["c.jsonl"] none).2.2 rfl).1

/-- Modelled from the spec: the private state of one shard worker — the rows it
has not yet looked at, and its own cache log. -/
structure ShardState where
  remaining : List Row
  log : List CacheRecord
deriving DecidableEq

/-- Modelled from the spec: one step of a shard worker — take the next row of the
shard, skip it when it is already cached, otherwise compute it and append the
record to this shard's log. -/
def stepShard (fn : Row → Option Item) (s : ShardState) : ShardState :=
  match s.remaining with
  | [] => s
  | r :: rs =>
    if cacheHas s.log r.rowid then ⟨rs, s.log⟩
    else ⟨rs, s.log ++ [⟨r.rowid, fn r⟩]⟩

/-- Modelled from the spec: execute a worker interleaving — the schedule lists,
in order, which shard performs its next step; shards share no state. -/
def runSchedule (fn : Row → Option Item) :
    List Nat → (Nat → ShardState) → Nat → ShardState
  | [], states => states
  | i :: rest, states =>
    runSchedule fn rest (Function.update states i (stepShard fn (states i)))

/-- The initial worker states: each shard holds its slice of rows and an empty log. -/
def initStates (shardRows : Nat → List Row) : Nat → ShardState :=
  fun i => ⟨shardRows i, []⟩

theorem runSchedule_apply (fn : Row → Option Item) (sched : List Nat)
    (states : Nat → ShardState) (j : Nat) :
    runSchedule fn sched states j = (stepShard fn)^[sched.count j] (states j) := by
  induction sched generalizing states with
  | nil => rfl
  | cons i rest ih =>
    simp only [runSchedule]
    rw [ih]
    by_cases hij : i = j
    · subst hij
      rw [Function.update_same, List.count_cons_self,
        Function.iterate_succ_apply]
    · rw [Function.update_noteq (fun he => hij he.symm),
        List.count_cons_of_ne (fun he => hij he.symm)]

theorem iterate_stepShard (fn : Row → Option Item) (n : Nat) (rows : List Row)
    (log : List CacheRecord) :
    (stepShard fn)^[n] ⟨rows, log⟩ = ⟨rows.drop n, seqRun fn (rows.take n) log⟩ := by
  induction n generalizing rows log with
  | zero => rfl
  | succ m ih =>
    rw [Function.iterate_succ_apply]
    cases rows with
    | nil =>
      simp only [stepShard, List.drop_nil, List.take_nil, seqRun]
      have := ih [] log
      simpa using this
    | cons r rs =>
      simp only [stepShard, List.drop_succ_cons, List.take_succ_cons, seqRun]
      by_cases h : cacheHas log r.rowid = true
      · simp only [h, if_true]
        exact ih rs log
      · simp only [h, if_false, Bool.false_eq_true]
        exact ih rs (log ++ [⟨r.rowid, fn r⟩])

theorem runSchedule_complete_log (fn : Row → Option Item)
    (shardRows : Nat → List Row) (sched : List Nat) {i : Nat}
    (h : (runSchedule fn sched (initStates shardRows) i).remaining = []) :
    (runSchedule fn sched (initStates shardRows) i).log
      = seqRun fn (shardRows i) [] := by
  rw [runSchedule_apply] at h ⊢
  rw [initStates, iterate_stepShard] at h ⊢
  simp only at h ⊢
  have hlen : (shardRows i).length ≤ sched.count i :=
    (List.drop_eq_nil_iff).mp h
  rw [List.take_of_length_le hlen]

/-- C8: for a pure per-row transform run in parallel across shards, the final
per-shard cache logs — and hence the merged materialized values — are the same
for every worker interleaving that runs all shards to completion, and equal the
sequential result of each shard. -/
theorem parallel_shards_deterministic (fn : Row → Option Item)
    (shardRows : Nat → List Row) (k : Nat) (s₁ s₂ : List Nat)
    (h₁ : ∀ i, i < k → (runSchedule fn s₁ (initStates shardRows) i).remaining = [])
    (h₂ : ∀ i, i < k → (runSchedule fn s₂ (initStates shardRows) i).remaining = []) :
    ∀ i, i < k →
      (runSchedule fn s₁ (initStates shardRows) i).log = seqRun fn (shardRows i) [] ∧
      (runSchedule fn s₁ (initStates shardRows) i).log
        = (runSchedule fn s₂ (initStates shardRows) i).log := by
  intro i hi
  have e₁ := runSchedule_complete_log fn shardRows s₁ (h₁ i hi)
  have e₂ := runSchedule_complete_log fn shardRows s₂ (h₂ i hi)
  exact ⟨e₁, e₁.trans e₂.symm⟩

/-- The shard partition used in the C8 witness: two rows on shard 0, one on shard 1. -/
def witnessShardRows : Nat → List Row := fun i =>
  if i = 0 then [⟨0, Item.str "a"⟩, ⟨1, Item.str "b"⟩]
  else if i = 1 then [⟨2, Item.str "c"⟩]
  else []

/-- The pure per-row transform used in the C8 witness. -/
def witnessFn : Row → Option Item := fun r => some (Item.num (Int.ofNat r.rowid))

/-- Witness for C8: two different complete interleavings of two shards end with
identical shard logs. -/
theorem parallel_shards_deterministic_witness :
    (runSchedule witnessFn [0, 1, 0] (initStates witnessShardRows) 0).log
        = seqRun witnessFn (witnessShardRows 0) [] ∧
    (runSchedule witnessFn [0, 1, 0] (initStates witnessShardRows) 0).log
        = (runSchedule witnessFn [1, 0, 0] (initStates witnessShardRows) 0).log :=
  parallel_shards_deterministic witnessFn witnessShardRows 2 [0, 1, 0] [1, 0, 0]
    (by decide) (by decide) 0 (by decide)

/-- Modelled from the spec: the Row Transform Runner for a user function that may
raise. On a raised error the runner stops at once, leaves the log exactly as it
was, and surfaces the error; otherwise it behaves like the non-failing runner. -/
def seqRunE (fn : Row → Except String (Option Item)) :
    List Row → List CacheRecord → List CacheRecord × Option String
  | [], log => (log, none)
  | r :: rs, log =>
    if cacheHas log r.rowid then seqRunE fn rs log
    else
      match fn r with
      | Except.error e => (log, some e)
      | Except.ok out => seqRunE fn rs (log ++ [⟨r.rowid, out⟩])

/-- Modelled from the spec: the terminal status the Scheduler records for a shard
Task from the runner result. -/
def taskStatusOfRun (res : List CacheRecord × Option String) : TaskStatus :=
  match res.2 with
  | some e => TaskStatus.errored e
  | none => TaskStatus.completed

theorem cacheHas_eq_true_iff (log : List CacheRecord) (rid : Nat) :
    cacheHas log rid = true ↔ ∃ c ∈ log, c.rowid = rid := by
  simp [cacheHas, List.any_eq_true]

theorem cacheHas_eq_false_iff (log : List CacheRecord) (rid : Nat) :
    cacheHas log rid = false ↔ ∀ c ∈ log, c.rowid ≠ rid := by
  rw [← Bool.not_eq_true, cacheHas_eq_true_iff]
  push_neg
  rfl

theorem cacheHas_append_single (log : List CacheRecord) (c : CacheRecord)
    (rid : Nat) : cacheHas (log ++ [c]) rid = (cacheHas log rid || (c.rowid == rid)) := by
  simp [cacheHas_append, cacheHas]

theorem seqRunE_fresh_ok_prefix (fn : Row → Except String (Option Item))
    (g : Row → Option Item) (l rest : List Row) {log : List CacheRecord}
    (hfresh : ∀ r ∈ l, cacheHas log r.rowid = false)
    (hnd : (l.map Row.rowid).Nodup)
    (hok : ∀ r ∈ l, fn r = Except.ok (g r)) :
    seqRunE fn (l ++ rest) log
      = seqRunE fn rest (log ++ l.map (fun r => ⟨r.rowid, g r⟩)) := by
  induction l generalizing log with
  | nil => simp
  | cons r rs ih =>
    have hr : cacheHas log r.rowid = false := hfresh r (List.mem_cons_self r rs)
    have hfn : fn r = Except.ok (g r) := hok r (List.mem_cons_self r rs)
    simp only [List.cons_append, seqRunE, hr, Bool.false_eq_true, if_false, hfn]
    rw [List.map_cons] at hnd ⊢
    have hnd' := List.nodup_cons.mp hnd
    have hfresh' : ∀ x ∈ rs, cacheHas (log ++ [⟨r.rowid, g r⟩]) x.rowid = false := by
      intro x hx
      rw [cacheHas_append_single]
      have h1 : cacheHas log x.rowid = false := hfresh x (List.mem_cons_of_mem r hx)
      have h2 : r.rowid ≠ x.rowid := by
        intro he
        exact hnd'.1 (he ▸ List.mem_map_of_mem Row.rowid hx)
      simp [h1, h2]
    rw [List.append_eq, ih hfresh' hnd'.2
      (fun x hx => hok x (List.mem_cons_of_mem r hx))]
    simp

theorem seqRunE_error_head (fn : Row → Except String (Option Item)) (r : Row)
    (rest : List Row) {log : List CacheRecord} {e : String}
    (hfresh : cacheHas log r.rowid = false) (herr : fn r = Except.error e) :
    seqRunE fn (r :: rest) log = (log, some e) := by
  simp [seqRunE, hfresh, herr]

theorem seqRunTr_cached_prefix (fn : Row → Option Item) (l rest : List Row)
    {log : List CacheRecord}
    (h : ∀ r ∈ l, cacheHas log r.rowid = true) :
    seqRunTr fn (l ++ rest) log = seqRunTr fn rest log := by
  induction l with
  | nil => rfl
  | cons r rs ih =>
    simp only [List.cons_append, seqRunTr, h r (List.mem_cons_self r rs), if_true]
    exact ih (fun x hx => h x (List.mem_cons_of_mem r hx))

theorem seqRunTr_fresh_run (fn : Row → Option Item) (l : List Row)
    {log : List CacheRecord}
    (hfresh : ∀ r ∈ l, cacheHas log r.rowid = false)
    (hnd : (l.map Row.rowid).Nodup) :
    seqRunTr fn l log
      = (log ++ l.map (fun r => ⟨r.rowid, fn r⟩), l.map Row.rowid) := by
  induction l generalizing log with
  | nil => simp [seqRunTr]
  | cons r rs ih =>
    have hr : cacheHas log r.rowid = false := hfresh r (List.mem_cons_self r rs)
    simp only [seqRunTr, hr, Bool.false_eq_true, if_false]
    rw [List.map_cons] at hnd
    have hnd' := List.nodup_cons.mp hnd
    have hfresh' : ∀ x ∈ rs, cacheHas (log ++ [⟨r.rowid, fn r⟩]) x.rowid = false := by
      intro x hx
      rw [cacheHas_append_single]
      have h1 : cacheHas log x.rowid = false := hfresh x (List.mem_cons_of_mem r hx)
      have h2 : r.rowid ≠ x.rowid := by
        intro he
        exact hnd'.1 (he ▸ List.mem_map_of_mem Row.rowid hx)
      simp [h1, h2]
    rw [ih hfresh' hnd'.2]
    simp

/-- A source row of the 1000-row scenario, identified by its RowId. -/
def mkRow (i : Nat) : Row := ⟨i, Item.str "premise"⟩

/-- The 1000-row single-shard dataset of the failure scenario. -/
def rows1000 : List Row := (List.range 1000).map mkRow

/-- The deterministic per-row transform of the scenario. -/
def upperFn : Row → Option Item := fun r => some (Item.num (Int.ofNat r.rowid))

/-- The faulty transform of the scenario: it raises on row 500 and behaves like
the deterministic transform everywhere else. -/
def failingUpperFn : Row → Except String (Option Item) := fun r =>
  if r.rowid = 500 then Except.error "Throwing for row 500"
  else Except.ok (upperFn r)

/-- The rows processed before the fault. -/
def preRows : List Row := (List.range 500).map mkRow

/-- The rows after the faulty one. -/
def tailRows : List Row := (List.range 499).map (fun j => mkRow (501 + j))

/-- The cache records committed before the fault. -/
def preRecs : List CacheRecord :=
  (List.range 500).map (fun i => ⟨i, some (Item.num (Int.ofNat i))⟩)

theorem rows1000_split : rows1000 = preRows ++ (mkRow 500 :: tailRows) := by
  have h1000 : (1000 : Nat) = 501 + 499 := rfl
  have h501 : (501 : Nat) = 500 + 1 := rfl
  rw [rows1000, h1000, List.range_add, h501, List.range_succ]
  simp [preRows, tailRows, List.map_map, Function.comp]

theorem preRows_fresh : ∀ r ∈ preRows, cacheHas [] r.rowid = false := by
  intro r _
  rfl

theorem preRows_nodup : (preRows.map Row.rowid).Nodup := by
  have h : preRows.map Row.rowid = List.range 500 := by
    rw [preRows, List.map_map]
    exact List.map_id (List.range 500)
  rw [h]
  exact List.nodup_range 500

theorem preRows_rowid_lt {r : Row} (hr : r ∈ preRows) : r.rowid < 500 := by
  rw [preRows] at hr
  rcases List.mem_map.mp hr with ⟨i, hi, he⟩
  rw [← he]
  exact List.mem_range.mp hi

theorem preRows_ok : ∀ r ∈ preRows, failingUpperFn r = Except.ok (upperFn r) := by
  intro r hr
  have hlt := preRows_rowid_lt hr
  have hne : r.rowid ≠ 500 := Nat.ne_of_lt hlt
  simp [failingUpperFn, hne]

theorem preRows_map_rec :
    preRows.map (fun r => (⟨r.rowid, upperFn r⟩ : CacheRecord)) = preRecs := by
  rw [preRows, preRecs, List.map_map]
  rfl

theorem preRecs_rowid_lt {c : CacheRecord} (hc : c ∈ preRecs) : c.rowid < 500 := by
  rw [preRecs] at hc
  rcases List.mem_map.mp hc with ⟨i, hi, he⟩
  rw [← he]
  exact List.mem_range.mp hi

theorem preRecs_no500 : cacheHas preRecs 500 = false := by
  rw [cacheHas_eq_false_iff]
  intro c hc
  exact Nat.ne_of_lt (preRecs_rowid_lt hc)

theorem seqRunE_fail_log :
    seqRunE failingUpperFn rows1000 [] = (preRecs, some "Throwing for row 500") := by
  rw [rows1000_split,
    seqRunE_fresh_ok_prefix failingUpperFn upperFn preRows (mkRow 500 :: tailRows)
      preRows_fresh preRows_nodup preRows_ok,
    List.nil_append, preRows_map_rec,
    seqRunE_error_head failingUpperFn (mkRow 500) tailRows preRecs_no500 rfl]

theorem preRows_cached : ∀ r ∈ preRows, cacheHas preRecs r.rowid = true := by
  intro r hr
  rw [cacheHas_eq_true_iff]
  have hlt := preRows_rowid_lt hr
  exact ⟨⟨r.rowid, some (Item.num (Int.ofNat r.rowid))⟩,
    List.mem_map_of_mem _ (List.mem_range.mpr hlt), rfl⟩

theorem sfx_fresh : ∀ r ∈ mkRow 500 :: tailRows, cacheHas preRecs r.rowid = false := by
  intro r hr
  rw [cacheHas_eq_false_iff]
  intro c hc
  have hclt := preRecs_rowid_lt hc
  rcases List.mem_cons.mp hr with h | h
  · rw [h]
    exact Nat.ne_of_lt hclt
  · rw [tailRows] at h
    rcases List.mem_map.mp h with ⟨j, _, he⟩
    rw [← he]
    show c.rowid ≠ 501 + j
    omega

theorem sfx_rowids : (mkRow 500 :: tailRows).map Row.rowid = List.range' 500 500 := by
  have htl : tailRows.map Row.rowid = (List.range 499).map (fun j => 501 + j) := by
    rw [tailRows, List.map_map]
    rfl
  rw [List.map_cons, htl, ← List.range'_eq_map_range]
  rw [show (mkRow 500).rowid = 500 from rfl]
  exact (List.range'_succ 500 499 1).symm

theorem sfx_nodup : ((mkRow 500 :: tailRows).map Row.rowid).Nodup := by
  rw [sfx_rowids]
  exact List.nodup_range' 500 500

theorem seqRunTr_resume_eq :
    seqRunTr upperFn rows1000 preRecs
      = (preRecs ++ (mkRow 500 :: tailRows).map
            (fun r => (⟨r.rowid, upperFn r⟩ : CacheRecord)),
         List.range' 500 500) := by
  rw [rows1000_split,
    seqRunTr_cached_prefix upperFn preRows (mkRow 500 :: tailRows) preRows_cached,
    seqRunTr_fresh_run upperFn (mkRow 500 :: tailRows) sfx_fresh sfx_nodup,
    sfx_rowids]

theorem finalLog_outputs_some :
    ∀ c ∈ (seqRunTr upperFn rows1000 preRecs).1, c.output.isSome = true := by
  rw [seqRunTr_resume_eq]
  intro c hc
  rcases List.mem_append.mp hc with h | h
  · rw [preRecs] at h
    rcases List.mem_map.mp h with ⟨i, _, he⟩
    rw [← he]
    rfl
  · rcases List.mem_map.mp h with ⟨r, _, he⟩
    rw [← he]
    rfl

theorem rows1000_length : rows1000.length = 1000 := by
  rw [rows1000, List.length_map, List.length_range]

/-- C4 (amended): if the user function raises while processing a shard, the runner
stops at once, leaves the cache log exactly as it was at the error (with no record
for the failing row) and records the error as the Task's terminal state; in the
1000-row single-shard scenario with the fault on row 500, the log holds exactly
the 500 records of rows 0–499, and re-invoking with the fault removed invokes the
function exactly on rows 500–999 and yields a complete 1000-row output column. -/
theorem map_error_stops_and_resumes :
    seqRunE failingUpperFn rows1000 [] = (preRecs, some "Throwing for row 500") ∧
    (seqRunE failingUpperFn rows1000 []).1.length = 500 ∧
    cacheHas (seqRunE failingUpperFn rows1000 []).1 500 = false ∧
    taskStatusOfRun (seqRunE failingUpperFn rows1000 [])
      = TaskStatus.errored "Throwing for row 500" ∧
    (seqRunTr upperFn rows1000 (seqRunE failingUpperFn rows1000 []).1).2
      = List.range' 500 500 ∧
    (materializeColumn
        (seqRunTr upperFn rows1000 (seqRunE failingUpperFn rows1000 []).1).1
        rows1000).length = 1000 ∧
    ((materializeColumn
        (seqRunTr upperFn rows1000 (seqRunE failingUpperFn rows1000 []).1).1
        rows1000).all (fun o => o.isSome)) = true := by
  refine ⟨seqRunE_fail_log, ?_, ?_, ?_, ?_, ?_, ?_⟩
  · rw [seqRunE_fail_log, preRecs, List.length_map, List.length_range]
  · rw [seqRunE_fail_log]
    exact preRecs_no500
  · rw [seqRunE_fail_log]
    rfl
  · rw [seqRunE_fail_log]
    exact (congrArg Prod.snd seqRunTr_resume_eq)
  · rw [seqRunE_fail_log, materializeColumn, List.length_map, rows1000_length]
  · rw [seqRunE_fail_log]
    rw [List.all_eq_true]
    intro o ho
    rcases List.mem_map.mp ho with ⟨r, hr, he⟩
    have hhas : cacheHas (seqRunTr upperFn rows1000 preRecs).1 r.rowid = true := by
      rw [seqRunTr_fst]
      exact cacheHas_seqRun_of_mem upperFn hr preRecs
    rcases (cacheHas_eq_true_iff _ _).mp hhas with ⟨c, hc, hcr⟩
    have hfind : ((seqRunTr upperFn rows1000 preRecs).1.find?
        (fun c => c.rowid == r.rowid)).isSome = true := by
      rw [List.find?_isSome]
      exact ⟨c, hc, by simp [hcr]⟩
    rcases Option.isSome_iff_exists.mp hfind with ⟨c₂, hc₂⟩
    have hc₂mem := List.mem_of_find?_eq_some hc₂
    have hsome := finalLog_outputs_some c₂ hc₂mem
    rw [← he, hc₂]
    simpa [Option.bind] using hsome

/-- C4 counterexample: in the claim's own scenario — 1000 rows, single shard, the
user function raising on row 500 — the run errors but the cache log holds 500
records, not the 499 the claim states. -/
theorem map_error_499_counterexample :
    (seqRunE failingUpperFn rows1000 []).2.isSome = true ∧
    (seqRunE failingUpperFn rows1000 []).1.length ≠ 499 := by
  rw [seqRunE_fail_log]
  refine ⟨rfl, ?_⟩
  rw [preRecs, List.length_map, List.length_range]
  omega

/-- The inline style properties `hoistElement` touches: position, top and left. -/
structure ElemStyle where
  position : String
  top : String
  left : String
deriving DecidableEq

/-- A DOM element as `hoistElement` observes it: its parent element (none when
detached), its inline style, and the top/left of its current bounding rect. -/
structure Elem where
  parent : Option String
  style : ElemStyle
  rectTop : Int
  rectLeft : Int
deriving DecidableEq

/-- The name standing for `document.body`. -/
def documentBody : String := "body"

/-- Embedded from `Hoist.ts`: unless disabled, `hoistElement` appends the element
to `document.body` and positions it absolutely at its prior bounding-rect
top/left; the returned `destroy` re-appends it to its original parent when that
parent existed (optional chaining skips the re-append otherwise) and clears the
position, top and left styles. -/
def hoistElement (e : Elem) (disable : Option Bool) : Elem × (Elem → Elem) :=
  let d := disable.getD false
  let originalParent := e.parent
  let hoisted :=
    if d then e
    else ⟨some documentBody,
          ⟨"absolute", toString e.rectTop ++ "px", toString e.rectLeft ++ "px"⟩,
          e.rectTop, e.rectLeft⟩
  (hoisted, fun el =>
    if d then el
    else
      ⟨match originalParent with
        | some p => some p
        | none => el.parent,
       ⟨"", "", ""⟩, el.rectTop, el.rectLeft⟩)

/-- C10 counterexample: for an element with no parent and disable false, destroy
does not restore the original (absent) parent — after hoist and destroy the
element hangs off `document.body`, so the claimed re-append to the original
parent fails. -/
theorem hoist_restore_counterexample :
    ¬ (((hoistElement ⟨none, ⟨"", "", ""⟩, 10, 20⟩ none).2
          ((hoistElement ⟨none, ⟨"", "", ""⟩, 10, 20⟩ none).1)).parent
        = (⟨none, ⟨"", "", ""⟩, 10, 20⟩ : Elem).parent) := by
  decide

/-- C10 (amended): with disable false, `hoistElement` re-parents the element to
`document.body` with position absolute at its prior bounding-rect top/left, and
`destroy` clears the position, top and left styles and re-appends the element to
its original parent provided it had one — an element that had no parent stays
under `document.body`; with disable true, both `hoistElement` and `destroy`
leave the element entirely unchanged. -/
theorem hoist_destroy_roundtrip (e : Elem) (disable : Option Bool) :
    (disable.getD false = false →
      (hoistElement e disable).1.parent = some documentBody ∧
      (hoistElement e disable).1.style =
        ⟨"absolute", toString e.rectTop ++ "px", toString e.rectLeft ++ "px"⟩ ∧
      (∀ p, e.parent = some p →
        ((hoistElement e disable).2 ((hoistElement e disable).1)).parent = some p) ∧
      (e.parent = none →
        ((hoistElement e disable).2 ((hoistElement e disable).1)).parent
          = some documentBody) ∧
      ((hoistElement e disable).2 ((hoistElement e disable).1)).style
        = ⟨"", "", ""⟩) ∧
    (disable.getD false = true →
      (hoistElement e disable).1 = e ∧
      (hoistElement e disable).2 ((hoistElement e disable).1) = e) := by
  constructor
  · intro hd
    refine ⟨?_, ?_, ?_, ?_, ?_⟩
    · simp [hoistElement, hd]
    · simp [hoistElement, hd]
    · intro p hp
      simp [hoistElement, hd, hp]
    · intro hp
      simp [hoistElement, hd, hp]
    · cases hpar : e.parent <;> simp [hoistElement, hd, hpar]
  · intro hd
    constructor
    · simp [hoistElement, hd]
    · simp [hoistElement, hd]

/-- Witness for C10 on a concrete parented element (disable absent, so false) and
a concrete element with hoisting disabled. -/
theorem hoist_destroy_roundtrip_witness :
    ((hoistElement ⟨some "container", ⟨"", "", ""⟩, 10, 20⟩ none).2
        ((hoistElement ⟨some "container", ⟨"", "", ""⟩, 10, 20⟩ none).1)).parent
      = some "container" ∧
    (hoistElement ⟨some "container", ⟨"", "", ""⟩, 10, 20⟩ (some true)).1
      = ⟨some "container", ⟨"", "", ""⟩, 10, 20⟩ := by
  constructor
  · exact (((hoist_destroy_roundtrip ⟨some "container", ⟨"", "", ""⟩, 10, 20⟩
      none).1 rfl).2.2.1) "container" rfl
  · exact ((hoist_destroy_roundtrip ⟨some "container", ⟨"", "", ""⟩, 10, 20⟩
      (some true)).2 rfl).1

end Lilac
